import Mathlib

/-!
Shallow embedding of the numeric core of `cleanlab/internal/util.py` and
`cleanlab/internal/token_classification_utils.py`.

Modelling conventions:
* Real (IEEE double) values are modelled by exact rationals `ℚ`; matrices are
  lists of row lists.  `numpy` element access `m[i][j]` is modelled by `getD`
  with default `0` (resp. `[]`); all theorems carry the shape hypotheses that
  make those defaults unreachable.
* `numpy` rounding (`np.round`, `.round()`) is round-half-to-even, embedded as
  `roundHalfEven`.
* Division by zero: `ℚ` division by `0` yields `0` in Lean, whereas `numpy`
  yields `inf`/`nan` (with a warning, not an exception).  Either way the
  source raises no error on a zero denominator; theorems about the degenerate
  cases are stated so that only this shared "no error is raised" behaviour and
  exact values away from zero denominators are used.
* Python code that raises (the bare `assert` in `confusion_matrix`, the
  `IndexError` from `maps[i]` when the class map is shorter than the column
  count, and the `ValueError` from `np.max([])` / a negative `np.zeros` width
  in `merge_probs`) is modelled with `Option`, `none` marking the raise.
-/

namespace Cleanlab

/-- `np.round` / `float.round()`: round half to even (banker's rounding). -/
def roundHalfEven (q : ℚ) : ℤ :=
  if q - ⌊q⌋ < 1/2 then ⌊q⌋
  else if 1/2 < q - ⌊q⌋ then ⌊q⌋ + 1
  else if ⌊q⌋ % 2 = 0 then ⌊q⌋ else ⌊q⌋ + 1

/-- Key order used by `np.argsort(keys)`: compare the keyed values. -/
def leKey (keys : List ℚ) (a b : ℕ) : Prop := keys.getD a 0 ≤ keys.getD b 0

instance (keys : List ℚ) : DecidableRel (leKey keys) :=
  fun a b => inferInstanceAs (Decidable (_ ≤ _))

/-- `np.argsort(keys)`: the indices `0, …, len keys - 1` sorted so the keyed
values are ascending.  (`np.argsort`'s default quicksort leaves the order of
tying indices unspecified; we sort stably.  No claim below depends on the
order among ties: only sums, lengths and the no-iteration cases are used.) -/
def argsort (keys : List ℚ) : List ℕ :=
  List.insertionSort (leKey keys) (List.range keys.length)

/-- `for i in indices: ints[i] = ints[i] + increment`. -/
def bump (ints : List ℤ) (idxs : List ℕ) (inc : ℤ) : List ℤ :=
  idxs.foldl (fun acc i => acc.set i (acc.getD i 0 + inc)) ints

/-- The `while abs(int_sum - orig_sum) > 1e-6` correction loop of
`round_preserving_sum`.  All quantities are integers, so the `1e-6` tolerance
test is exactly `ints.sum ≠ origSum`, and `np.round(orig_sum - int_sum)` is
`origSum - ints.sum` itself.  The loop is embedded with explicit fuel; the
termination theorem below shows the fuel chosen in `round_preserving_sum`
(the initial discrepancy) suffices.  The second component counts the number
of loop iterations actually performed.  `[::-increment]` reverses the argsort
order exactly when `increment = 1`. -/
def rpsLoop (floats : List ℚ) (origSum : ℤ) : ℕ → List ℤ → List ℤ × ℕ
  | 0, ints => (ints, 0)
  | fuel + 1, ints =>
    if ints.sum = origSum then (ints, 0)
    else
      let diff := origSum - ints.sum
      let increment : ℤ := if diff < 0 then -1 else 1
      let changes := min diff.natAbs floats.length
      let resid := List.zipWith (fun (f : ℚ) (z : ℤ) => f - (z : ℚ)) floats ints
      let indices :=
        (if increment = 1 then (argsort resid).reverse else argsort resid).take changes
      let next := rpsLoop floats origSum fuel (bump ints indices increment)
      (next.1, next.2 + 1)

/-- `ints = floats.round()`. -/
def rpsInit (xs : List ℚ) : List ℤ := xs.map roundHalfEven

/-- `orig_sum = np.sum(floats).round()`. -/
def rpsTarget (xs : List ℚ) : ℤ := roundHalfEven xs.sum

/-- Fuel handed to the loop: the initial discrepancy, shown below to bound
the number of iterations the source's unbounded `while` performs. -/
def rpsFuel (xs : List ℚ) : ℕ := (rpsTarget xs - (rpsInit xs).sum).natAbs

/-- `round_preserving_sum` (util.py lines 170–202). -/
def round_preserving_sum (xs : List ℚ) : List ℤ :=
  (rpsLoop xs (rpsTarget xs) (rpsFuel xs) (rpsInit xs)).1

/-- Number of iterations the correction loop of `round_preserving_sum`
performs on input `xs`. -/
def rps_steps (xs : List ℚ) : ℕ :=
  (rpsLoop xs (rpsTarget xs) (rpsFuel xs) (rpsInit xs)).2

/-- `round_preserving_row_totals` (util.py lines 205–224):
`np.apply_along_axis(round_preserving_sum, 1, arr)`, i.e. the rounding is
applied to each row independently. -/
def round_preserving_row_totals (m : List (List ℚ)) : List (List ℤ) :=
  m.map round_preserving_sum

/-- Matrix entry `m[i][j]` (default 0 outside the shape). -/
def ent (m : List (List ℚ)) (i j : ℕ) : ℚ := (m.getD i []).getD j 0

/-- Column sum `np.sum(m[:, j])` / `m.sum(axis=0)[j]`. -/
def colSum (m : List (List ℚ)) (j : ℕ) : ℚ := (m.map fun row => row.getD j 0).sum

/-- Index-aware map, starting the index at `i` (helper for `mapIdxQ`). -/
def mapIdxGo (f : ℕ → α → β) : ℕ → List α → List β
  | _, [] => []
  | i, a :: as => f i a :: mapIdxGo f (i + 1) as

/-- Index-aware map over a list. -/
def mapIdxQ (f : ℕ → α → β) (l : List α) : List β := mapIdxGo f 0 l

/-- `clip_noise_rate_range`: clip into `[0, 0.9999]`. -/
def clipNR (v : ℚ) : ℚ := min (max v 0) (9999/10000)

/-- The intermediate matrix of `clip_noise_rates`: every entry clipped by
`clip_noise_rate_range`, then the original diagonal put back
(`np.fill_diagonal(noise_matrix, diagonal)` with `diagonal = np.diagonal`
of the input). -/
def cnrRestored (m : List (List ℚ)) : List (List ℚ) :=
  mapIdxQ (fun i row => row.set i (ent m i i)) (m.map (List.map clipNR))

/-- `clip_noise_rates` (util.py lines 60–95): clip every entry, put the
original diagonal back, then divide by the column sums
(`noise_matrix / noise_matrix.sum(axis=0)`). -/
def clip_noise_rates (m : List (List ℚ)) : List (List ℚ) :=
  (cnrRestored m).map (fun row => mapIdxQ (fun j v => v / colSum (cnrRestored m) j) row)

/-- `clip_values` (util.py lines 98–131): clip into `[low, high]`, then
rescale by `prev_sum / sum(clipped)` where `prev_sum` is the pre-clip sum
unless `new_sum` was supplied.  The source performs the zero-denominator
division unguarded (numpy: `nan`/`inf`; here: `0`). -/
def clip_values (x : List ℚ) (low high : ℚ) (new_sum : Option ℚ) : List ℚ :=
  let prev_sum := match new_sum with | none => x.sum | some s => s
  let clipped := x.map fun a => min (max a low) high
  clipped.map fun v => v * prev_sum / clipped.sum

/-- First step of `remove_noise_from_class`:
`x[cwn, [i for i in range(K) if i != cwn]] = 0.0`, i.e. row `cwn` zeroed
except its diagonal position. -/
def rnfcZeroed (m : List (List ℚ)) (cwn : ℕ) : List (List ℚ) :=
  mapIdxQ
    (fun r row => if r = cwn then mapIdxQ (fun j v => if j = cwn then v else 0) row else row) m

/-- `remove_noise_from_class` (util.py lines 25–57): zero row `cwn` off the
diagonal, then for every `i` set `x[i][i] = 1 - (sum(x[:, i]) - x[i][i])`.
The source's diagonal-repair loop is sequential, but iteration `i` writes
only position `(i, i)` and reads only column `i`, and `(r, r)` lies in
column `i` only when `r = i`, so the iterations are independent and the
simultaneous update below computes the same matrix. -/
def remove_noise_from_class (m : List (List ℚ)) (cwn : ℕ) : List (List ℚ) :=
  mapIdxQ (fun i row => row.set i (1 - (colSum (rnfcZeroed m cwn) i - row.getD i 0)))
    (rnfcZeroed m cwn)

/-- The `for i in range(old_classes): if maps[i] >= 0: merged[:, maps[i]] += probs[:, i]`
loop of `merge_probs`, restricted to one row (the column additions act on
each row independently). -/
def mergeLoopRow (row : List ℚ) (maps : List ℤ) (oldClasses : ℕ) (init : List ℚ) : List ℚ :=
  (List.range oldClasses).foldl
    (fun acc i =>
      if 0 ≤ maps.getD i 0 then
        acc.set (maps.getD i 0).toNat (acc.getD (maps.getD i 0).toNat 0 + row.getD i 0)
      else acc) init

/-- `np.max(maps)` for non-empty `maps`. -/
def mapsMax (maps : List ℤ) : ℤ := maps.foldl max (maps.headD 0)

/-- `map_size = np.max(maps) + 1`, as the width of `np.zeros([N, map_size])`. -/
def mapSizeOf (maps : List ℤ) : ℕ := (mapsMax maps + 1).toNat

/-- `merge_probs` (token_classification_utils.py lines 143–174).
`old_classes = probs.shape[1]` is the (common) row length.  The source raises
only from `np.max` on an empty class map, from `np.zeros` when
`np.max(maps) + 1 < 0`, and from the `maps[i]` access when the class map is
shorter than the column count — it performs no shape validation of its own;
those raises are modelled as `none`.  When `-1 ∈ maps` every row of the
merged matrix is divided by its own sum, unguarded. -/
def merge_probs (probs : List (List ℚ)) (maps : List ℤ) : Option (List (List ℚ)) :=
  let oldClasses := (probs.headD []).length
  if maps = [] then none
  else if maps.length < oldClasses then none
  else if mapsMax maps + 1 < 0 then none
  else
    let merged := probs.map fun row =>
      mergeLoopRow row maps oldClasses (List.replicate (mapSizeOf maps) 0)
    some (if (-1 : ℤ) ∈ maps then merged.map (fun row => row.map (fun v => v / row.sum)) else merged)

/-- Closed form of the merging loop: output column `j` collects the input
columns `i < oldClasses` with `maps[i] = j` (so columns mapped to `-1`
contribute nothing, `j` being a natural number). -/
def mergedEntry (row : List ℚ) (maps : List ℤ) (oldClasses j : ℕ) : ℚ :=
  ∑ i in (Finset.range oldClasses).filter (fun i => maps.getD i 0 = (j : ℤ)), row.getD i 0

/-- The merged (un-renormalized) matrix in closed form. -/
def mergedMatrix (probs : List (List ℚ)) (maps : List ℤ) (oldClasses : ℕ) : List (List ℚ) :=
  probs.map fun row => (List.range (mapSizeOf maps)).map (mergedEntry row maps oldClasses)

/-- Divide every row by its own sum (`probs_merged /= row_sums[:, np.newaxis]`). -/
def divRows (m : List (List ℚ)) : List (List ℚ) :=
  m.map fun row => row.map (fun v => v / row.sum)

/-- `np.unique l`: the distinct values of `l` sorted ascending. -/
def uniqueSorted (l : List ℤ) : List ℤ := List.insertionSort (· ≤ ·) l.dedup

/-- `result[a][b] += 1`. -/
def incrCell (mtx : List (List ℕ)) (a b : ℕ) : List (List ℕ) :=
  mtx.set a ((mtx.getD a []).set b ((mtx.getD a []).getD b 0 + 1))

/-- `confusion_matrix` (util.py lines 282–319).  The `assert len(true) ==
len(pred)` is modelled by `none` on a length mismatch.  Counts are naturals
(the source stores them in a float `np.zeros`, incrementing by 1). -/
def confusion_matrix (t p : List ℤ) : Option (List (List ℕ)) :=
  if t.length = p.length then
    some ((t.zip p).foldl
      (fun acc pr => incrCell acc ((uniqueSorted t).indexOf pr.1) ((uniqueSorted p).indexOf pr.2))
      (List.replicate (uniqueSorted t).length (List.replicate (uniqueSorted p).length 0)))
  else none

/-- Total of all cells of a count matrix. -/
def totalCount (m : List (List ℕ)) : ℕ := (m.map List.sum).sum

/-! ### Basic lemmas about the rounding machinery -/

theorem roundHalfEven_intCast (z : ℤ) : roundHalfEven (z : ℚ) = z := by
  have : ((z : ℚ) - ⌊(z : ℚ)⌋ : ℚ) = 0 := by simp
  unfold roundHalfEven
  rw [this]
  norm_num

theorem roundHalfEven_zero : roundHalfEven 0 = 0 := by
  simpa using roundHalfEven_intCast 0

theorem abs_roundHalfEven_sub (q : ℚ) : |(roundHalfEven q : ℚ) - q| ≤ 1/2 := by
  have h0 : (⌊q⌋ : ℚ) ≤ q := Int.floor_le q
  have h1 : q < ⌊q⌋ + 1 := Int.lt_floor_add_one q
  unfold roundHalfEven
  split
  · next hlt => rw [abs_le]; constructor <;> linarith
  · next hge =>
    rw [not_lt] at hge
    split
    · next => rw [abs_le]; push_cast; constructor <;> linarith
    · next hle =>
      rw [not_lt] at hle
      split
      · rw [abs_le]; constructor <;> linarith
      · rw [abs_le]; push_cast; constructor <;> linarith

theorem sum_sub_roundHalfEven_abs (xs : List ℚ) :
    |xs.sum - ((xs.map roundHalfEven).sum : ℚ)| ≤ xs.length / 2 := by
  induction xs with
  | nil => simp
  | cons a tl ih =>
    have ha : |a - (roundHalfEven a : ℚ)| ≤ 1/2 := by
      rw [abs_sub_comm]; exact abs_roundHalfEven_sub a
    have key : (a :: tl).sum - (((a :: tl).map roundHalfEven).sum : ℚ) =
        (a - (roundHalfEven a : ℚ)) + (tl.sum - ((tl.map roundHalfEven).sum : ℚ)) := by
      simp only [List.sum_cons, List.map_cons]
      push_cast
      ring
    rw [key]
    calc |(a - (roundHalfEven a : ℚ)) + (tl.sum - ((tl.map roundHalfEven).sum : ℚ))|
        ≤ |a - (roundHalfEven a : ℚ)| + |tl.sum - ((tl.map roundHalfEven).sum : ℚ)| := abs_add _ _
      _ ≤ 1/2 + tl.length / 2 := add_le_add ha ih
      _ = ((a :: tl).length : ℚ) / 2 := by
          simp only [List.length_cons]
          push_cast
          ring

theorem rpsFuel_le_length (xs : List ℚ) : rpsFuel xs ≤ xs.length := by
  have h1 : |(rpsTarget xs : ℚ) - xs.sum| ≤ 1/2 := abs_roundHalfEven_sub xs.sum
  have h2 := sum_sub_roundHalfEven_abs xs
  have h3 : ((rpsFuel xs : ℕ) : ℚ) ≤ (xs.length + 1) / 2 := by
    have hcast : ((rpsFuel xs : ℕ) : ℚ) = |((rpsTarget xs - (rpsInit xs).sum : ℤ) : ℚ)| := by
      rw [rpsFuel, Int.cast_natAbs, Int.cast_abs]
    rw [hcast]
    have key : ((rpsTarget xs - (rpsInit xs).sum : ℤ) : ℚ) =
        ((rpsTarget xs : ℚ) - xs.sum) + (xs.sum - ((xs.map roundHalfEven).sum : ℤ)) := by
      rw [rpsInit]; push_cast; ring
    calc |((rpsTarget xs - (rpsInit xs).sum : ℤ) : ℚ)|
        ≤ |(rpsTarget xs : ℚ) - xs.sum| + |xs.sum - ((xs.map roundHalfEven).sum : ℤ)| := by
          rw [key]; exact abs_add _ _
      _ ≤ 1/2 + xs.length / 2 := add_le_add h1 h2
      _ = (xs.length + 1) / 2 := by ring
  by_contra hcon
  push_neg at hcon
  have : ((xs.length : ℕ) : ℚ) + 1 ≤ ((rpsFuel xs : ℕ) : ℚ) := by
    exact_mod_cast Nat.succ_le_of_lt hcon
  linarith

theorem sum_set_int (l : List ℤ) (i : ℕ) (v : ℤ) (h : i < l.length) :
    (l.set i v).sum = l.sum - l.getD i 0 + v := by
  induction l generalizing i with
  | nil => simp at h
  | cons a tl ih =>
    cases i with
    | zero => simp [List.getD]; ring
    | succ n =>
      have hn : n < tl.length := by simpa using h
      simp only [List.set, List.sum_cons, List.getD_cons_succ]
      rw [ih n hn]
      ring

theorem bump_length (idxs : List ℕ) (ints : List ℤ) (inc : ℤ) :
    (bump ints idxs inc).length = ints.length := by
  induction idxs generalizing ints with
  | nil => rfl
  | cons i is ih =>
    show (bump (ints.set i (ints.getD i 0 + inc)) is inc).length = ints.length
    rw [ih, List.length_set]

theorem bump_sum (idxs : List ℕ) (ints : List ℤ) (inc : ℤ)
    (h : ∀ i ∈ idxs, i < ints.length) :
    (bump ints idxs inc).sum = ints.sum + inc * idxs.length := by
  induction idxs generalizing ints with
  | nil => simp [bump]
  | cons i is ih =>
    have hi : i < ints.length := h i (List.mem_cons_self i is)
    have hrec := ih (ints.set i (ints.getD i 0 + inc)) (by
      intro j hj
      rw [List.length_set]
      exact h j (List.mem_cons_of_mem i hj))
    show (bump (ints.set i (ints.getD i 0 + inc)) is inc).sum = ints.sum + inc * (is.length + 1)
    rw [hrec, sum_set_int ints i _ hi]
    ring

theorem argsort_perm (keys : List ℚ) : (argsort keys).Perm (List.range keys.length) :=
  List.perm_insertionSort _ _

theorem mem_argsort_lt (keys : List ℚ) (i : ℕ) (h : i ∈ argsort keys) : i < keys.length := by
  have := (argsort_perm keys).mem_iff.mp h
  simpa using this

/-- Invariant of the correction loop: with fuel at least the current
discrepancy, the loop drives the integer sum exactly to the target, keeps the
length, and performs at most `|target - current sum|` iterations (each
iteration moves the sum by `min |diff| (length)` ≥ 1 toward the target). -/
theorem rpsLoop_spec (floats : List ℚ) (origSum : ℤ) :
    ∀ fuel (ints : List ℤ), ints.length = floats.length →
      (floats.length = 0 → ints.sum = origSum) →
      (origSum - ints.sum).natAbs ≤ fuel →
      (rpsLoop floats origSum fuel ints).1.sum = origSum ∧
      (rpsLoop floats origSum fuel ints).1.length = floats.length ∧
      (rpsLoop floats origSum fuel ints).2 ≤ (origSum - ints.sum).natAbs := by
  intro fuel
  induction fuel with
  | zero =>
    intro ints hlen hnil hfuel
    have hsum : ints.sum = origSum := by omega
    simp [rpsLoop, hsum, hlen]
  | succ n ih =>
    intro ints hlen hnil hfuel
    by_cases hs : ints.sum = origSum
    · simp [rpsLoop, hs, hlen]
    · have hne : floats.length ≠ 0 := fun h0 => hs (hnil h0)
      simp only [rpsLoop, if_neg hs]
      set diff := origSum - ints.sum with hdiff
      have hdne : diff ≠ 0 := by omega
      set inc : ℤ := if diff < 0 then -1 else 1 with hinc
      set changes := min diff.natAbs floats.length with hchanges
      have hch1 : 1 ≤ changes := by
        have h1 : 1 ≤ diff.natAbs := by omega
        have h2 : 1 ≤ floats.length := Nat.one_le_iff_ne_zero.mpr hne
        omega
      set resid := List.zipWith (fun (f : ℚ) (z : ℤ) => f - (z : ℚ)) floats ints with hresid
      have hreslen : resid.length = floats.length := by
        rw [hresid, List.length_zipWith, hlen, min_self]
      set indices :=
        (if inc = 1 then (argsort resid).reverse else argsort resid).take changes with hindices
      have hmem : ∀ i ∈ indices, i < ints.length := by
        intro i hi
        have h1 : i ∈ (if inc = 1 then (argsort resid).reverse else argsort resid) :=
          List.mem_of_mem_take hi
        have h2 : i ∈ argsort resid := by
          by_cases hc : inc = 1
          · rw [if_pos hc] at h1
            exact List.mem_reverse.mp h1
          · rwa [if_neg hc] at h1
        have h3 := mem_argsort_lt resid i h2
        omega
      have hilen : indices.length = changes := by
        rw [hindices, List.length_take]
        have hl2 : (if inc = 1 then (argsort resid).reverse else argsort resid).length
            = floats.length := by
          by_cases hc : inc = 1 <;>
            simp [hc, argsort, List.length_insertionSort, hreslen]
        rw [hl2]
        omega
      have hbsum : (bump ints indices inc).sum = ints.sum + inc * changes := by
        rw [bump_sum indices ints inc hmem, hilen]
      have hkey : (origSum - (bump ints indices inc).sum).natAbs + changes = diff.natAbs := by
        rw [hbsum]
        have hcle : changes ≤ diff.natAbs := by omega
        by_cases hd : diff < 0
        · rw [hinc] at *
          simp only [if_pos hd]
          omega
        · rw [hinc] at *
          simp only [if_neg hd]
          omega
      have hrec := ih (bump ints indices inc)
        (by rw [bump_length, hlen])
        (fun h0 => absurd h0 hne)
        (by omega)
      refine ⟨hrec.1, hrec.2.1, ?_⟩
      have := hrec.2.2
      omega

theorem round_preserving_sum_eq (xs : List ℚ) :
    (round_preserving_sum xs).sum = rpsTarget xs ∧
    (round_preserving_sum xs).length = xs.length ∧
    rps_steps xs ≤ rpsFuel xs := by
  have hnil : xs.length = 0 → (rpsInit xs).sum = rpsTarget xs := by
    intro h0
    have hx : xs = [] := List.length_eq_zero.mp h0
    subst hx
    simp [rpsInit, rpsTarget, roundHalfEven_zero]
  have h := rpsLoop_spec xs (rpsTarget xs) (rpsFuel xs) (rpsInit xs)
    (by simp [rpsInit]) hnil (le_of_eq rfl)
  refine ⟨h.1, ?_, h.2.2⟩
  rw [round_preserving_sum]
  rw [h.2.1]

theorem intCast_list_sum (zs : List ℤ) : ((zs.sum : ℤ) : ℚ) = (zs.map fun z : ℤ => (z : ℚ)).sum := by
  induction zs with
  | nil => simp
  | cons a tl ih => simp only [List.map_cons, List.sum_cons, Int.cast_add, ih]

/-- C1: for every real vector `v`, `round_preserving_sum v` is a vector of
integers whose sum is the real sum of `v` rounded once (half to even, as
`np.round` does) to the nearest integer, and `round_preserving_row_totals`
applies this row-wise: the row count is unchanged, each row keeps its column
count, and each output row sums to that input row's rounded real sum. -/
theorem round_preserving_sums_correct (v : List ℚ) (m : List (List ℚ)) :
    (round_preserving_sum v).sum = roundHalfEven v.sum ∧
    (round_preserving_sum v).length = v.length ∧
    (round_preserving_row_totals m).length = m.length ∧
    (round_preserving_row_totals m).map List.sum = m.map (fun row => roundHalfEven row.sum) ∧
    (round_preserving_row_totals m).map List.length = m.map List.length := by
  have hv := round_preserving_sum_eq v
  refine ⟨hv.1, hv.2.1, ?_, ?_, ?_⟩
  · simp [round_preserving_row_totals]
  · rw [round_preserving_row_totals, List.map_map]
    apply List.map_congr_left
    intro row _
    exact (round_preserving_sum_eq row).1
  · rw [round_preserving_row_totals, List.map_map]
    apply List.map_congr_left
    intro row _
    exact (round_preserving_sum_eq row).2.1

/-- C7: the correction loop of `round_preserving_sum` terminates: the number
of iterations it performs is at most the initial discrepancy
`|round(sum v) - sum(round v)|`, which is itself at most `v.length` (each
iteration adjusts `min |diff| (v.length)` entries, at least one whenever the
discrepancy is nonzero, strictly shrinking it — see `rpsLoop_spec`), and on
exit the integer sum equals the rounded target. -/
theorem round_preserving_sum_terminates (v : List ℚ) :
    rps_steps v ≤ rpsFuel v ∧ rpsFuel v ≤ v.length ∧
    (round_preserving_sum v).sum = rpsTarget v :=
  ⟨(round_preserving_sum_eq v).2.2, rpsFuel_le_length v, (round_preserving_sum_eq v).1⟩

/-- C10: inputs whose entries are already integral are fixed points of
`round_preserving_sum`: the element-wise rounding reproduces the input, the
candidate sum already equals the rounded target, and the correction loop
performs zero iterations. -/
theorem round_preserving_sum_int_fixed (zs : List ℤ) :
    round_preserving_sum (zs.map fun z : ℤ => (z : ℚ)) = zs ∧
    rps_steps (zs.map fun z : ℤ => (z : ℚ)) = 0 := by
  have hinit : rpsInit (zs.map fun z : ℤ => (z : ℚ)) = zs := by
    rw [rpsInit, List.map_map]
    have hcomp : (roundHalfEven ∘ fun z : ℤ => (z : ℚ)) = id := by
      funext z
      simp [Function.comp, roundHalfEven_intCast]
    rw [hcomp, List.map_id]
  have htgt : rpsTarget (zs.map fun z : ℤ => (z : ℚ)) = zs.sum := by
    rw [rpsTarget, ← intCast_list_sum, roundHalfEven_intCast]
  have hfuel : rpsFuel (zs.map fun z : ℤ => (z : ℚ)) = 0 := by
    rw [rpsFuel, hinit, htgt]
    simp
  constructor
  · simp only [round_preserving_sum, hfuel, hinit]
    rfl
  · simp only [rps_steps, hfuel, hinit]
    rfl

/-! ### List and matrix access lemmas -/

theorem getD_set_self {α : Type} (l : List α) (i : ℕ) (v d : α) (h : i < l.length) :
    (l.set i v).getD i d = v := by
  rw [List.getD_eq_getElem _ _ (by simpa using h), List.getElem_set]
  simp

theorem getD_set_ne {α : Type} (l : List α) (i j : ℕ) (v d : α) (h : i ≠ j) :
    (l.set i v).getD j d = l.getD j d := by
  by_cases hj : j < l.length
  · rw [List.getD_eq_getElem _ _ (by simpa using hj), List.getD_eq_getElem _ _ hj,
      List.getElem_set, if_neg h]
  · rw [List.getD_eq_default _ _ (by simpa using not_lt.mp hj),
      List.getD_eq_default _ _ (not_lt.mp hj)]

theorem getD_map {α β : Type} (f : α → β) (l : List α) (j : ℕ) (hj : j < l.length)
    (d : α) (d' : β) : (l.map f).getD j d' = f (l.getD j d) := by
  rw [List.getD_eq_getElem _ _ (by simpa using hj), List.getD_eq_getElem _ _ hj,
    List.getElem_map]

theorem getD_replicate_self {α : Type} (n j : ℕ) (a d : α) (hj : j < n) :
    (List.replicate n a).getD j d = a := by
  rw [List.getD_eq_getElem _ _ (by simpa using hj)]
  simp

theorem getD_mem_of_lt {α : Type} (l : List α) (i : ℕ) (d : α) (h : i < l.length) :
    l.getD i d ∈ l := by
  rw [List.getD_eq_getElem _ _ h]
  exact List.getElem_mem h

theorem list_ext_getD {α : Type} (d : α) (l l' : List α) (hlen : l.length = l'.length)
    (he : ∀ k, k < l.length → l.getD k d = l'.getD k d) : l = l' := by
  apply List.ext_getElem hlen
  intro n h1 h2
  have := he n h1
  rwa [List.getD_eq_getElem _ _ h1, List.getD_eq_getElem _ _ h2] at this

theorem mapIdxGo_length {α β : Type} (f : ℕ → α → β) (i : ℕ) (l : List α) :
    (mapIdxGo f i l).length = l.length := by
  induction l generalizing i with
  | nil => rfl
  | cons a as ih => simp [mapIdxGo, ih]

theorem mapIdxQ_length {α β : Type} (f : ℕ → α → β) (l : List α) :
    (mapIdxQ f l).length = l.length :=
  mapIdxGo_length f 0 l

theorem mapIdxGo_getD {α β : Type} (f : ℕ → α → β) (i : ℕ) (l : List α) (k : ℕ)
    (hk : k < l.length) (d : α) (d' : β) :
    (mapIdxGo f i l).getD k d' = f (i + k) (l.getD k d) := by
  induction l generalizing i k with
  | nil => simp at hk
  | cons a as ih =>
    cases k with
    | zero => simp [mapIdxGo]
    | succ k2 =>
      have hk2 : k2 < as.length := by simpa using hk
      simp only [mapIdxGo, List.getD_cons_succ]
      rw [ih (i + 1) k2 hk2]
      congr 1
      omega

theorem mapIdxQ_getD {α β : Type} (f : ℕ → α → β) (l : List α) (k : ℕ)
    (hk : k < l.length) (d : α) (d' : β) :
    (mapIdxQ f l).getD k d' = f k (l.getD k d) := by
  rw [mapIdxQ, mapIdxGo_getD f 0 l k hk d d', Nat.zero_add]

theorem colSum_eq_sum_range (m : List (List ℚ)) (j : ℕ) :
    colSum m j = ∑ i in Finset.range m.length, ent m i j := by
  induction m with
  | nil => simp [colSum]
  | cons row rest ih =>
    have hrhs : ∑ i in Finset.range (row :: rest).length, ent (row :: rest) i j
        = ∑ i in Finset.range rest.length, ent rest i j + row.getD j 0 := by
      rw [List.length_cons, Finset.sum_range_succ']
      simp [ent]
    rw [hrhs, ← ih]
    simp only [colSum, List.map_cons, List.sum_cons]
    ring

theorem list_range_map_sum (n : ℕ) (f : ℕ → ℚ) :
    ((List.range n).map f).sum = ∑ i in Finset.range n, f i := by
  induction n with
  | zero => simp
  | succ k ih =>
    rw [List.range_succ, List.map_append, List.sum_append, Finset.sum_range_succ, ih]
    simp

theorem getD_le_sum_of_nonneg (l : List ℚ) (hn : ∀ x ∈ l, 0 ≤ x) (i : ℕ)
    (hi : i < l.length) : l.getD i 0 ≤ l.sum := by
  induction l generalizing i with
  | nil => simp at hi
  | cons a tl ih =>
    cases i with
    | zero =>
      simp only [List.getD_cons_zero, List.sum_cons]
      have h0 : (0 : ℚ) ≤ tl.sum :=
        List.sum_nonneg (fun x hx => hn x (List.mem_cons_of_mem _ hx))
      linarith
    | succ k =>
      simp only [List.getD_cons_succ, List.sum_cons]
      have h1 := ih (fun x hx => hn x (List.mem_cons_of_mem _ hx)) k (by simpa using hi)
      have ha := hn a (List.mem_cons_self _ _)
      linarith

/-! ### `clip_noise_rates` -/

theorem clipNR_nonneg (v : ℚ) : 0 ≤ clipNR v := by
  rw [clipNR]
  apply le_min (le_max_right v 0)
  norm_num

theorem clipNR_pos (v : ℚ) (h : 0 < v) : 0 < clipNR v := by
  rw [clipNR, lt_min_iff]
  constructor
  · exact lt_max_iff.mpr (Or.inl h)
  · norm_num

theorem clipNR_eq_self (v : ℚ) (h0 : 0 ≤ v) (h1 : v ≤ 9999/10000) : clipNR v = v := by
  rw [clipNR, max_eq_left h0, min_eq_left h1]

theorem cnrRestored_length (m : List (List ℚ)) : (cnrRestored m).length = m.length := by
  rw [cnrRestored, mapIdxQ_length, List.length_map]

theorem cnrRestored_getD (m : List (List ℚ)) (i : ℕ) (hi : i < m.length) :
    (cnrRestored m).getD i [] = ((m.getD i []).map clipNR).set i (ent m i i) := by
  rw [cnrRestored, mapIdxQ_getD _ _ i (by simpa using hi) [] [],
    getD_map (List.map clipNR) m i hi [] []]

theorem cnrRestored_row_length (m : List (List ℚ)) (i : ℕ) (hi : i < m.length) :
    ((cnrRestored m).getD i []).length = (m.getD i []).length := by
  rw [cnrRestored_getD m i hi, List.length_set, List.length_map]

theorem ent_cnrRestored (m : List (List ℚ)) (i j : ℕ) (hi : i < m.length)
    (hj : j < (m.getD i []).length) :
    ent (cnrRestored m) i j = if j = i then ent m i i else clipNR (ent m i j) := by
  rw [ent, cnrRestored_getD m i hi]
  by_cases hij : j = i
  · subst hij
    rw [if_pos rfl]
    exact getD_set_self _ j _ 0 (by simpa using hj)
  · rw [if_neg hij, getD_set_ne _ i j _ 0 (fun h => hij h.symm),
      getD_map clipNR _ j hj 0 0]
    rfl

theorem clip_noise_rates_length (m : List (List ℚ)) :
    (clip_noise_rates m).length = m.length := by
  rw [clip_noise_rates, List.length_map, cnrRestored_length]

theorem clip_noise_rates_row_length (m : List (List ℚ)) (i : ℕ) (hi : i < m.length) :
    ((clip_noise_rates m).getD i []).length = (m.getD i []).length := by
  rw [clip_noise_rates,
    getD_map _ _ i (by rw [cnrRestored_length]; exact hi) [] [],
    mapIdxQ_length, cnrRestored_row_length m i hi]

theorem ent_clip_noise_rates (m : List (List ℚ)) (i j : ℕ) (hi : i < m.length)
    (hj : j < (m.getD i []).length) :
    ent (clip_noise_rates m) i j = ent (cnrRestored m) i j / colSum (cnrRestored m) j := by
  rw [ent, clip_noise_rates,
    getD_map _ _ i (by rw [cnrRestored_length]; exact hi) [] [],
    mapIdxQ_getD _ _ j (by rw [cnrRestored_row_length m i hi]; exact hj) 0 0]
  rfl

/-- C3 (amended): for every valid noise matrix (square, entries in `[0,1]`,
columns summing to 1), every column of the `clip_noise_rates` output sums to
exactly 1; and the diagonal is unchanged — indeed the whole matrix is
returned unchanged — provided additionally no off-diagonal entry exceeds the
clipping threshold `0.9999`.  (Without that proviso the diagonal can change:
clipping an off-diagonal entry shrinks its column sum, and the column
renormalization then rescales the diagonal; see the counterexample.) -/
theorem clip_noise_rates_amended (m : List (List ℚ))
    (hsq : ∀ row ∈ m, row.length = m.length)
    (hent : ∀ row ∈ m, ∀ v ∈ row, 0 ≤ v ∧ v ≤ 1)
    (hcol : ∀ j, j < m.length → colSum m j = 1) :
    (∀ j, j < m.length → colSum (clip_noise_rates m) j = 1) ∧
    ((∀ i, i < m.length → ∀ j, j < m.length → i ≠ j → ent m i j ≤ 9999/10000) →
      clip_noise_rates m = m) := by
  have hrowlen : ∀ i, i < m.length → (m.getD i []).length = m.length := by
    intro i hi
    exact hsq _ (getD_mem_of_lt m i [] hi)
  have hb : ∀ i j, i < m.length → j < m.length → 0 ≤ ent m i j ∧ ent m i j ≤ 1 := by
    intro i j hi hj
    have hrow := getD_mem_of_lt m i [] hi
    have hv : (m.getD i []).getD j 0 ∈ m.getD i [] :=
      getD_mem_of_lt _ j 0 (by rw [hrowlen i hi]; exact hj)
    exact hent _ hrow _ hv
  have hnn : ∀ j, j < m.length →
      ∀ i ∈ Finset.range m.length, (0:ℚ) ≤ ent (cnrRestored m) i j := by
    intro j hj i himem
    have hi : i < m.length := Finset.mem_range.mp himem
    rw [ent_cnrRestored m i j hi (by rw [hrowlen i hi]; exact hj)]
    by_cases hji : j = i
    · rw [if_pos hji]
      exact (hb i i hi hi).1
    · rw [if_neg hji]
      exact clipNR_nonneg _
  have hspos : ∀ j, j < m.length → 0 < colSum (cnrRestored m) j := by
    intro j hj
    have hsum1 : ∑ i in Finset.range m.length, ent m i j = 1 := by
      rw [← colSum_eq_sum_range]
      exact hcol j hj
    have hlt : (∑ i in Finset.range m.length, (0:ℚ))
        < ∑ i in Finset.range m.length, ent m i j := by
      rw [hsum1, Finset.sum_const, smul_zero]
      norm_num
    obtain ⟨i0, hi0mem, hi0pos⟩ := Finset.exists_lt_of_sum_lt hlt
    have hi0 : i0 < m.length := Finset.mem_range.mp hi0mem
    have hpos0 : 0 < ent (cnrRestored m) i0 j := by
      rw [ent_cnrRestored m i0 j hi0 (by rw [hrowlen i0 hi0]; exact hj)]
      by_cases hji : j = i0
      · rw [if_pos hji]
        rw [hji] at hi0pos
        exact hi0pos
      · rw [if_neg hji]
        exact clipNR_pos _ hi0pos
    have hcs : colSum (cnrRestored m) j = ∑ i in Finset.range m.length, ent (cnrRestored m) i j := by
      rw [colSum_eq_sum_range, cnrRestored_length]
    rw [hcs]
    exact lt_of_lt_of_le hpos0 (Finset.single_le_sum (hnn j hj) hi0mem)
  constructor
  · intro j hj
    rw [colSum_eq_sum_range, clip_noise_rates_length]
    have hcongr : ∑ i in Finset.range m.length, ent (clip_noise_rates m) i j
        = ∑ i in Finset.range m.length, ent (cnrRestored m) i j / colSum (cnrRestored m) j := by
      apply Finset.sum_congr rfl
      intro i himem
      exact ent_clip_noise_rates m i j (Finset.mem_range.mp himem)
        (by rw [hrowlen i (Finset.mem_range.mp himem)]; exact hj)
    rw [hcongr, ← Finset.sum_div]
    have hcs : ∑ i in Finset.range m.length, ent (cnrRestored m) i j
        = colSum (cnrRestored m) j := by
      rw [colSum_eq_sum_range, cnrRestored_length]
    rw [hcs]
    exact div_self (ne_of_gt (hspos j hj))
  · intro hoff
    have hres : cnrRestored m = m := by
      apply list_ext_getD [] _ _ (cnrRestored_length m)
      intro i hi'
      have hi : i < m.length := by rwa [cnrRestored_length] at hi'
      rw [cnrRestored_getD m i hi]
      apply list_ext_getD 0 _ _ (by rw [List.length_set, List.length_map])
      intro k hk
      have hk' : k < (m.getD i []).length := by
        simpa [List.length_set, List.length_map] using hk
      have hkK : k < m.length := by
        rw [← hrowlen i hi]
        exact hk'
      by_cases hki : k = i
      · subst hki
        rw [getD_set_self _ k _ 0 (by simpa using hk')]
        rfl
      · rw [getD_set_ne _ i k _ 0 (fun h => hki h.symm), getD_map clipNR _ k hk' 0 0]
        exact clipNR_eq_self _ (hb i k hi hkK).1 (hoff i hi k hkK (fun h => hki h.symm))
    simp only [clip_noise_rates, hres]
    apply list_ext_getD [] _ _ (by rw [List.length_map])
    intro i hi'
    have hi : i < m.length := by rwa [List.length_map] at hi'
    rw [getD_map _ _ i hi [] []]
    apply list_ext_getD 0 _ _ (by rw [mapIdxQ_length])
    intro k hk'
    have hk : k < (m.getD i []).length := by rwa [mapIdxQ_length] at hk'
    rw [mapIdxQ_getD _ _ k hk 0 0]
    have hkK : k < m.length := by
      rw [← hrowlen i hi]
      exact hk
    rw [hcol k hkK, div_one]

/-- C3 counterexample: a valid noise matrix (all entries in `[0,1]`, both
columns summing to 1) for which `clip_noise_rates` changes the diagonal:
entry (0,0) becomes `1/19999` instead of `1/20000`, because the off-diagonal
entry `19999/20000 > 0.9999` is clipped and the column renormalization then
rescales the untouched diagonal.  This refutes the claim that the diagonal
always equals the input diagonal. -/
theorem clip_noise_rates_diagonal_changes :
    colSum [[1/20000, 3/10], [19999/20000, 7/10]] 0 = 1 ∧
    colSum [[1/20000, 3/10], [19999/20000, 7/10]] 1 = 1 ∧
    ((0:ℚ) ≤ 1/20000 ∧ (1:ℚ)/20000 ≤ 1) ∧ ((0:ℚ) ≤ 3/10 ∧ (3:ℚ)/10 ≤ 1) ∧
    ((0:ℚ) ≤ 19999/20000 ∧ (19999:ℚ)/20000 ≤ 1) ∧ ((0:ℚ) ≤ 7/10 ∧ (7:ℚ)/10 ≤ 1) ∧
    ent [[(1:ℚ)/20000, 3/10], [19999/20000, 7/10]] 0 0 = 1/20000 ∧
    ent (clip_noise_rates [[1/20000, 3/10], [19999/20000, 7/10]]) 0 0 = 1/19999 := by
  refine ⟨by norm_num [colSum], by norm_num [colSum], by norm_num, by norm_num,
    by norm_num, by norm_num, by norm_num [ent], ?_⟩
  norm_num [clip_noise_rates, cnrRestored, mapIdxQ, mapIdxGo, colSum, ent, clipNR,
    min_def, max_def]

/-- Witness for C3 (amended) at the spec's concrete scenario 4: the 2×2
matrix `[[0.999, 0.3], [0.001, 0.7]]` is within clipping range, so the
output columns sum to 1 and the matrix is returned unchanged. -/
theorem clip_noise_rates_amended_witness :
    (∀ j, j < 2 → colSum (clip_noise_rates [[999/1000, 3/10], [1/1000, 7/10]]) j = 1) ∧
    clip_noise_rates [[999/1000, 3/10], [1/1000, 7/10]]
      = [[999/1000, 3/10], [1/1000, 7/10]] := by
  have h := clip_noise_rates_amended [[999/1000, 3/10], [1/1000, 7/10]]
    (by norm_num) (by norm_num)
    (by
      intro j hj
      have hj2 : j < 2 := by simpa using hj
      interval_cases j <;> norm_num [colSum])
  refine ⟨h.1, h.2 ?_⟩
  intro i hi j hj hij
  have hi2 : i < 2 := by simpa using hi
  have hj2 : j < 2 := by simpa using hj
  interval_cases i <;> interval_cases j <;>
    first
    | exact absurd rfl hij
    | norm_num [ent]

/-! ### `remove_noise_from_class` -/

theorem rnfcZeroed_length (m : List (List ℚ)) (c : ℕ) :
    (rnfcZeroed m c).length = m.length := by
  rw [rnfcZeroed, mapIdxQ_length]

theorem rnfcZeroed_getD (m : List (List ℚ)) (c r : ℕ) (hr : r < m.length) :
    (rnfcZeroed m c).getD r []
      = if r = c then mapIdxQ (fun j v => if j = c then v else 0) (m.getD r []) else m.getD r [] := by
  rw [rnfcZeroed, mapIdxQ_getD _ _ r hr [] []]

theorem rnfcZeroed_row_length (m : List (List ℚ)) (c r : ℕ) (hr : r < m.length) :
    ((rnfcZeroed m c).getD r []).length = (m.getD r []).length := by
  rw [rnfcZeroed_getD m c r hr]
  by_cases hrc : r = c
  · rw [if_pos hrc, mapIdxQ_length]
  · rw [if_neg hrc]

theorem ent_rnfcZeroed (m : List (List ℚ)) (c r j : ℕ) (hr : r < m.length)
    (hj : j < (m.getD r []).length) :
    ent (rnfcZeroed m c) r j = if r = c ∧ j ≠ c then 0 else ent m r j := by
  rw [ent, rnfcZeroed_getD m c r hr]
  by_cases hrc : r = c
  · rw [if_pos hrc, mapIdxQ_getD _ _ j hj 0 0]
    by_cases hjc : j = c
    · rw [if_pos hjc, if_neg (by simp [hrc, hjc])]
      rfl
    · rw [if_neg hjc, if_pos ⟨hrc, hjc⟩]
  · rw [if_neg hrc, if_neg (by simp [hrc])]
    rfl

theorem remove_noise_from_class_length (m : List (List ℚ)) (c : ℕ) :
    (remove_noise_from_class m c).length = m.length := by
  rw [remove_noise_from_class, mapIdxQ_length, rnfcZeroed_length]

theorem remove_noise_from_class_getD (m : List (List ℚ)) (c i : ℕ) (hi : i < m.length) :
    (remove_noise_from_class m c).getD i []
      = ((rnfcZeroed m c).getD i []).set i
          (1 - (colSum (rnfcZeroed m c) i - ent (rnfcZeroed m c) i i)) := by
  rw [remove_noise_from_class, mapIdxQ_getD _ _ i (by rw [rnfcZeroed_length]; exact hi) [] []]
  rfl

theorem ent_remove_noise_from_class (m : List (List ℚ)) (c i j : ℕ) (hi : i < m.length)
    (hii : i < (m.getD i []).length) :
    ent (remove_noise_from_class m c) i j
      = if j = i then 1 - (colSum (rnfcZeroed m c) i - ent (rnfcZeroed m c) i i)
        else ent (rnfcZeroed m c) i j := by
  rw [ent, remove_noise_from_class_getD m c i hi]
  by_cases hji : j = i
  · subst hji
    rw [if_pos rfl]
    exact getD_set_self _ j _ 0 (by rw [rnfcZeroed_row_length m c j hi]; exact hii)
  · rw [if_neg hji, getD_set_ne _ i j _ 0 (fun h => hji h.symm)]
    rfl

/-- C5: for every square matrix whose columns sum to 1 and every class index
`c < K`, `remove_noise_from_class` returns a matrix in which (1) every
off-diagonal entry of row `c` is 0, (2) every diagonal entry `[i][i]` equals
1 minus the sum of column `i`'s off-diagonal entries, and therefore (3)
every column of the result sums to exactly 1. -/
theorem remove_noise_from_class_correct (m : List (List ℚ)) (c : ℕ)
    (hsq : ∀ row ∈ m, row.length = m.length)
    (hc : c < m.length)
    (hcol : ∀ j, j < m.length → colSum m j = 1) :
    (∀ j, j < m.length → j ≠ c → ent (remove_noise_from_class m c) c j = 0) ∧
    (∀ i, i < m.length →
      ent (remove_noise_from_class m c) i i
        = 1 - ∑ r in (Finset.range m.length).erase i, ent (remove_noise_from_class m c) r i) ∧
    (∀ j, j < m.length → colSum (remove_noise_from_class m c) j = 1) := by
  have hrowlen : ∀ i, i < m.length → (m.getD i []).length = m.length := by
    intro i hi
    exact hsq _ (getD_mem_of_lt m i [] hi)
  have hentY : ∀ i j, i < m.length → j < m.length →
      ent (remove_noise_from_class m c) i j
        = if j = i then 1 - (colSum (rnfcZeroed m c) i - ent (rnfcZeroed m c) i i)
          else ent (rnfcZeroed m c) i j := by
    intro i j hi _
    exact ent_remove_noise_from_class m c i j hi (by rw [hrowlen i hi]; exact hi)
  have hcolX : ∀ i, i < m.length →
      colSum (rnfcZeroed m c) i
        = (∑ r in (Finset.range m.length).erase i, ent (rnfcZeroed m c) r i)
          + ent (rnfcZeroed m c) i i := by
    intro i hi
    rw [colSum_eq_sum_range, rnfcZeroed_length]
    rw [← Finset.sum_erase_add (Finset.range m.length) _ (Finset.mem_range.mpr hi)]
  have hdiagY : ∀ i, i < m.length →
      ent (remove_noise_from_class m c) i i
        = 1 - ∑ r in (Finset.range m.length).erase i, ent (rnfcZeroed m c) r i := by
    intro i hi
    rw [hentY i i hi hi, if_pos rfl, hcolX i hi]
    ring
  have herase : ∀ i, i < m.length →
      ∑ r in (Finset.range m.length).erase i, ent (remove_noise_from_class m c) r i
        = ∑ r in (Finset.range m.length).erase i, ent (rnfcZeroed m c) r i := by
    intro i hi
    apply Finset.sum_congr rfl
    intro r hrmem
    have hr : r < m.length := Finset.mem_range.mp (Finset.mem_erase.mp hrmem).2
    have hri : r ≠ i := (Finset.mem_erase.mp hrmem).1
    rw [hentY r i hr hi, if_neg (fun h => hri h.symm)]
  refine ⟨?_, ?_, ?_⟩
  · intro j hj hjc
    rw [hentY c j hc hj, if_neg (fun h => hjc (by rw [h]))]
    rw [ent_rnfcZeroed m c c j hc (by rw [hrowlen c hc]; exact hj), if_pos ⟨rfl, hjc⟩]
  · intro i hi
    rw [hdiagY i hi, herase i hi]
  · intro j hj
    rw [colSum_eq_sum_range, remove_noise_from_class_length]
    rw [← Finset.sum_erase_add (Finset.range m.length) _ (Finset.mem_range.mpr hj)]
    rw [herase j hj, hdiagY j hj]
    ring

/-- Witness for C5 on the concrete matrix `[[0.7, 0.2], [0.3, 0.8]]` with
`c = 1`: the off-diagonal entry of row 1 becomes 0 and both columns of the
result sum to 1. -/
theorem remove_noise_from_class_witness :
    ent (remove_noise_from_class [[7/10, 2/10], [3/10, 8/10]] 1) 1 0 = 0 ∧
    colSum (remove_noise_from_class [[7/10, 2/10], [3/10, 8/10]] 1) 0 = 1 ∧
    colSum (remove_noise_from_class [[7/10, 2/10], [3/10, 8/10]] 1) 1 = 1 := by
  have h := remove_noise_from_class_correct [[7/10, 2/10], [3/10, 8/10]] 1
    (by norm_num) (by norm_num)
    (by
      intro j hj
      have hj2 : j < 2 := by simpa using hj
      interval_cases j <;> norm_num [colSum])
  exact ⟨h.1 0 (by norm_num) (by norm_num), h.2.2 0 (by norm_num), h.2.2 1 (by norm_num)⟩

/-! ### `merge_probs` -/

theorem le_foldl_max (l : List ℤ) (init : ℤ) : init ≤ l.foldl max init := by
  induction l generalizing init with
  | nil => simp
  | cons a tl ih => exact le_trans (le_max_left init a) (ih (max init a))

theorem mem_le_foldl_max (l : List ℤ) (init x : ℤ) (hx : x ∈ l) : x ≤ l.foldl max init := by
  induction l generalizing init with
  | nil => simp at hx
  | cons a tl ih =>
    rcases List.mem_cons.mp hx with h | h
    · subst h
      exact le_trans (le_max_right init x) (le_foldl_max tl _)
    · exact ih _ h

theorem foldl_max_le (l : List ℤ) (init b : ℤ) (h0 : init ≤ b) (h : ∀ x ∈ l, x ≤ b) :
    l.foldl max init ≤ b := by
  induction l generalizing init with
  | nil => simpa
  | cons a tl ih =>
    exact ih (max init a) (max_le h0 (h a (List.mem_cons_self a tl)))
      (fun x hx => h x (List.mem_cons_of_mem a hx))

theorem headD_mem (l : List ℤ) (h : l ≠ []) : l.headD 0 ∈ l := by
  cases l with
  | nil => exact absurd rfl h
  | cons a tl => exact List.mem_cons_self a tl

theorem mapsMax_ge_mem (maps : List ℤ) (x : ℤ) (hx : x ∈ maps) : x ≤ mapsMax maps :=
  mem_le_foldl_max maps _ x hx

theorem getD_le_mapsMax (maps : List ℤ) (i : ℕ) (hi : i < maps.length) :
    maps.getD i 0 ≤ mapsMax maps :=
  mapsMax_ge_mem maps _ (getD_mem_of_lt maps i 0 hi)

theorem getD_range (n j : ℕ) (hj : j < n) (d : ℕ) : (List.range n).getD j d = j := by
  rw [List.getD_eq_getElem _ _ (by simpa using hj), List.getElem_range]

theorem sum_getD_range (l : List ℚ) : ∑ i in Finset.range l.length, l.getD i 0 = l.sum := by
  induction l with
  | nil => simp
  | cons a tl ih =>
    rw [List.length_cons, Finset.sum_range_succ']
    simp only [List.getD_cons_succ, List.getD_cons_zero, List.sum_cons, ih]
    ring

theorem mergedEntry_succ (row : List ℚ) (maps : List ℤ) (n j : ℕ) :
    mergedEntry row maps (n + 1) j
      = mergedEntry row maps n j + if maps.getD n 0 = (j : ℤ) then row.getD n 0 else 0 := by
  rw [mergedEntry, mergedEntry, Finset.range_succ, Finset.filter_insert]
  by_cases h : maps.getD n 0 = (j : ℤ)
  · rw [if_pos h, Finset.sum_insert (by simp), if_pos h]
    ring
  · rw [if_neg h, if_neg h, add_zero]

theorem mergeLoopRow_succ (row : List ℚ) (maps : List ℤ) (k : ℕ) (init : List ℚ) :
    mergeLoopRow row maps (k + 1) init
      = if 0 ≤ maps.getD k 0 then
          (mergeLoopRow row maps k init).set (maps.getD k 0).toNat
            ((mergeLoopRow row maps k init).getD (maps.getD k 0).toNat 0 + row.getD k 0)
        else mergeLoopRow row maps k init := by
  rw [mergeLoopRow, mergeLoopRow, List.range_succ, List.foldl_append]
  rfl

theorem mergeLoopRow_length (row : List ℚ) (maps : List ℤ) (n : ℕ) (init : List ℚ) :
    (mergeLoopRow row maps n init).length = init.length := by
  induction n with
  | zero => rfl
  | succ k ih =>
    rw [mergeLoopRow_succ]
    by_cases h : 0 ≤ maps.getD k 0
    · rw [if_pos h, List.length_set, ih]
    · rw [if_neg h, ih]

theorem mergeLoopRow_getD (row : List ℚ) (maps : List ℤ) (n : ℕ) (init : List ℚ)
    (hvalid : ∀ i, i < n → 0 ≤ maps.getD i 0 → (maps.getD i 0).toNat < init.length) :
    ∀ j, j < init.length →
      (mergeLoopRow row maps n init).getD j 0 = init.getD j 0 + mergedEntry row maps n j := by
  induction n with
  | zero =>
    intro j _
    simp [mergeLoopRow, mergedEntry]
  | succ k ih =>
    intro j hj
    have hvk : ∀ i, i < k → 0 ≤ maps.getD i 0 → (maps.getD i 0).toNat < init.length :=
      fun i hi => hvalid i (Nat.lt_succ_of_lt hi)
    have hlen : (mergeLoopRow row maps k init).length = init.length :=
      mergeLoopRow_length row maps k init
    rw [mergeLoopRow_succ, mergedEntry_succ]
    by_cases hpos : 0 ≤ maps.getD k 0
    · rw [if_pos hpos]
      have htlt : (maps.getD k 0).toNat < init.length := hvalid k (Nat.lt_succ_self k) hpos
      by_cases hjt : j = (maps.getD k 0).toNat
      · subst hjt
        rw [getD_set_self _ _ _ 0 (by rw [hlen]; exact htlt), ih hvk _ htlt]
        rw [if_pos (by omega)]
        ring
      · rw [getD_set_ne _ _ j _ 0 (fun h => hjt h.symm), ih hvk j hj,
          if_neg (by omega), add_zero]
    · rw [if_neg hpos, ih hvk j hj, if_neg (by omega), add_zero]

theorem mergeLoopRow_eq_map (row : List ℚ) (maps : List ℤ) (n msz : ℕ)
    (hvalid : ∀ i, i < n → 0 ≤ maps.getD i 0 → (maps.getD i 0).toNat < msz) :
    mergeLoopRow row maps n (List.replicate msz 0)
      = (List.range msz).map (mergedEntry row maps n) := by
  apply list_ext_getD 0
  · rw [mergeLoopRow_length, List.length_replicate, List.length_map, List.length_range]
  · intro j hj
    have hj' : j < msz := by
      rwa [mergeLoopRow_length, List.length_replicate] at hj
    rw [mergeLoopRow_getD row maps n _ (by simpa using hvalid) j
        (by rw [List.length_replicate]; exact hj'),
      getD_replicate_self msz j 0 0 hj',
      getD_map _ _ j (by rw [List.length_range]; exact hj') 0 0,
      getD_range msz j hj' 0, zero_add]

/-- `merge_probs` under its non-raising conditions: the result is the closed
form merged matrix, renormalized row-wise exactly when `-1 ∈ maps`. -/
theorem merge_probs_eq (probs : List (List ℚ)) (maps : List ℤ)
    (hne : maps ≠ [])
    (hlen : (probs.headD []).length ≤ maps.length)
    (hmax : -1 ≤ mapsMax maps) :
    merge_probs probs maps
      = some (if (-1 : ℤ) ∈ maps
          then divRows (mergedMatrix probs maps (probs.headD []).length)
          else mergedMatrix probs maps (probs.headD []).length) := by
  have hrow : ∀ row : List ℚ,
      mergeLoopRow row maps (probs.headD []).length (List.replicate (mapSizeOf maps) 0)
        = (List.range (mapSizeOf maps)).map (mergedEntry row maps (probs.headD []).length) := by
    intro row
    apply mergeLoopRow_eq_map
    intro i hi hpos
    have h1 : maps.getD i 0 ≤ mapsMax maps :=
      getD_le_mapsMax maps i (lt_of_lt_of_le hi hlen)
    rw [mapSizeOf]
    omega
  simp only [merge_probs, if_neg hne, if_neg (not_lt.mpr hlen), if_neg (by omega : ¬mapsMax maps + 1 < 0)]
  congr 1
  by_cases hm : (-1 : ℤ) ∈ maps
  · rw [if_pos hm, if_pos hm, divRows, mergedMatrix, List.map_map, List.map_map]
    apply List.map_congr_left
    intro row _
    simp only [Function.comp]
    rw [hrow row]
  · rw [if_neg hm, if_neg hm, mergedMatrix]
    apply List.map_congr_left
    intro row _
    rw [hrow row]

/-- When every class survives (all map entries nonnegative), merging moves
every input entry into exactly one output column, so each merged row keeps
its exact sum. -/
theorem mergedRow_sum (row : List ℚ) (maps : List ℤ) (K : ℕ)
    (hrl : row.length = K) (hmlen : maps.length = K)
    (hpos : ∀ i, i < K → 0 ≤ maps.getD i 0) :
    ((List.range (mapSizeOf maps)).map (mergedEntry row maps K)).sum = row.sum := by
  rw [list_range_map_sum]
  have hmapsto : ∀ i ∈ Finset.range K, (maps.getD i 0).toNat ∈ Finset.range (mapSizeOf maps) := by
    intro i hi
    have hiK := Finset.mem_range.mp hi
    have h1 : maps.getD i 0 ≤ mapsMax maps := getD_le_mapsMax maps i (by omega)
    have h2 := hpos i hiK
    rw [Finset.mem_range, mapSizeOf]
    omega
  have hfib := Finset.sum_fiberwise_of_maps_to hmapsto (fun i => row.getD i 0)
  have hstep : ∑ j in Finset.range (mapSizeOf maps), mergedEntry row maps K j
      = ∑ i in Finset.range K, row.getD i 0 := by
    rw [← hfib]
    apply Finset.sum_congr rfl
    intro j _
    rw [mergedEntry]
    have hfil : Finset.filter (fun i => maps.getD i 0 = (j : ℤ)) (Finset.range K)
        = Finset.filter (fun i => (maps.getD i 0).toNat = j) (Finset.range K) := by
      apply Finset.filter_congr
      intro i hi
      have h2 := hpos i (Finset.mem_range.mp hi)
      constructor
      · intro h
        omega
      · intro h
        omega
    rw [hfil]
  rw [hstep, ← hrl, sum_getD_range]

/-- C4: under the ClassMap contract (length matching the column count, values
in `{-1} ∪ ℕ`), `merge_probs` returns the N-by-(max(maps)+1) matrix whose
column `j` is the element-wise sum of the input columns mapped to `j`
(dropped columns contribute nothing), with every row divided by its own sum
exactly when some map entry is `-1`; when no entry is `-1` there is no
renormalization pass and each output row's sum equals the input row's sum
exactly. -/
theorem merge_probs_characterization (probs : List (List ℚ)) (maps : List ℤ) (K : ℕ)
    (hK : 0 < K)
    (hrows : ∀ row ∈ probs, row.length = K)
    (hmlen : maps.length = K)
    (hvalid : ∀ v ∈ maps, -1 ≤ v) :
    ∃ M, merge_probs probs maps = some M ∧
      M = (if (-1 : ℤ) ∈ maps then divRows (mergedMatrix probs maps K)
           else mergedMatrix probs maps K) ∧
      M.length = probs.length ∧
      (∀ row ∈ M, row.length = mapSizeOf maps) ∧
      ((-1 : ℤ) ∉ maps → M.map List.sum = probs.map List.sum) := by
  have hne : maps ≠ [] := by
    intro h
    rw [h] at hmlen
    simp at hmlen
    omega
  have hmax : -1 ≤ mapsMax maps := le_trans (hvalid _ (headD_mem maps hne)) (le_foldl_max maps _)
  have hoc : mergedMatrix probs maps (probs.headD []).length = mergedMatrix probs maps K := by
    cases probs with
    | nil => rfl
    | cons p ps =>
      have : p.length = K := hrows p (List.mem_cons_self p ps)
      rw [List.headD_cons, this]
  have hoclen : (probs.headD []).length ≤ maps.length := by
    cases probs with
    | nil => simp
    | cons p ps =>
      rw [List.headD_cons, hrows p (List.mem_cons_self p ps), hmlen]
  have heq := merge_probs_eq probs maps hne hoclen hmax
  rw [hoc] at heq
  refine ⟨_, heq, rfl, ?_, ?_, ?_⟩
  · by_cases hm : (-1 : ℤ) ∈ maps
    · rw [if_pos hm, divRows, mergedMatrix, List.map_map]
      simp [List.length_map]
    · rw [if_neg hm, mergedMatrix]
      simp [List.length_map]
  · intro row hrowmem
    by_cases hm : (-1 : ℤ) ∈ maps
    · rw [if_pos hm, divRows, mergedMatrix, List.map_map] at hrowmem
      obtain ⟨prow, _, hprow⟩ := List.mem_map.mp hrowmem
      rw [← hprow]
      simp [Function.comp, List.length_map, List.length_range]
    · rw [if_neg hm, mergedMatrix] at hrowmem
      obtain ⟨prow, _, hprow⟩ := List.mem_map.mp hrowmem
      rw [← hprow]
      simp [List.length_map, List.length_range]
  · intro hm
    rw [if_neg hm, mergedMatrix, List.map_map]
    apply List.map_congr_left
    intro row hrowmem
    simp only [Function.comp]
    apply mergedRow_sum row maps K (hrows row hrowmem) hmlen
    intro i hi
    have hmem : maps.getD i 0 ∈ maps := getD_mem_of_lt maps i 0 (by omega)
    have h1 := hvalid _ hmem
    have h2 : maps.getD i 0 ≠ -1 := by
      intro h
      rw [h] at hmem
      exact hm hmem
    omega

/-- C6: the identity class map returns the probability matrix exactly. -/
theorem merge_probs_identity (probs : List (List ℚ)) (K : ℕ)
    (hK : 0 < K)
    (hrows : ∀ row ∈ probs, row.length = K) :
    merge_probs probs ((List.range K).map (fun i : ℕ => (i : ℤ))) = some probs := by
  set maps := (List.range K).map (fun i : ℕ => (i : ℤ)) with hmaps
  have hmlen : maps.length = K := by
    rw [hmaps, List.length_map, List.length_range]
  have hgetD : ∀ i, i < K → maps.getD i 0 = (i : ℤ) := by
    intro i hi
    rw [hmaps, getD_map _ _ i (by rw [List.length_range]; exact hi) 0 0, getD_range K i hi 0]
  have hne : maps ≠ [] := by
    intro h
    rw [h] at hmlen
    simp at hmlen
    omega
  have hnom : (-1 : ℤ) ∉ maps := by
    intro h
    rw [hmaps] at h
    obtain ⟨i, _, hi⟩ := List.mem_map.mp h
    omega
  have hmaxlb : (K : ℤ) - 1 ≤ mapsMax maps := by
    have hmem : ((K - 1 : ℕ) : ℤ) ∈ maps := by
      rw [hmaps]
      exact List.mem_map.mpr ⟨K - 1, List.mem_range.mpr (by omega), rfl⟩
    have := mapsMax_ge_mem maps _ hmem
    omega
  have hmaxub : mapsMax maps ≤ (K : ℤ) - 1 := by
    rw [mapsMax]
    apply foldl_max_le
    · have hmem := headD_mem maps hne
      rw [hmaps] at hmem
      obtain ⟨i, hirange, hi⟩ := List.mem_map.mp hmem
      have h3 := List.mem_range.mp hirange
      rw [hmaps, ← hi]
      omega
    · intro x hx
      rw [hmaps] at hx
      obtain ⟨i, hirange, hi⟩ := List.mem_map.mp hx
      have := List.mem_range.mp hirange
      omega
  have hmsz : mapSizeOf maps = K := by
    rw [mapSizeOf]
    omega
  have hoclen : (probs.headD []).length ≤ maps.length := by
    cases probs with
    | nil => simp
    | cons p ps =>
      rw [List.headD_cons, hrows p (List.mem_cons_self p ps), hmlen]
  have hm1 : (-1 : ℤ) ≤ mapsMax maps := by
    have : (0 : ℤ) ≤ (K : ℤ) - 1 := by
      have : 1 ≤ K := hK
      omega
    linarith
  have heq := merge_probs_eq probs maps hne hoclen hm1
  rw [if_neg hnom] at heq
  rw [heq]
  congr 1
  cases probs with
  | nil => rfl
  | cons p ps =>
    have hoc : ((p :: ps).headD []).length = K := by
      rw [List.headD_cons]
      exact hrows p (List.mem_cons_self p ps)
    rw [mergedMatrix]
    rw [show (p :: ps).map
        (fun row => (List.range (mapSizeOf maps)).map (mergedEntry row maps (((p :: ps).headD []).length)))
      = (p :: ps).map
        (fun row => (List.range (mapSizeOf maps)).map (mergedEntry row maps K)) from by rw [hoc]]
    nth_rewrite 2 [show p :: ps = (p :: ps).map id from (List.map_id _).symm]
    apply List.map_congr_left
    intro row hrowmem
    have hrl : row.length = K := hrows row hrowmem
    simp only [id_eq]
    apply list_ext_getD 0
    · rw [List.length_map, List.length_range, hmsz, hrl]
    · intro j hj
      have hjK : j < K := by
        rwa [List.length_map, List.length_range, hmsz] at hj
      rw [getD_map _ _ j (by rw [List.length_range, hmsz]; exact hjK) 0 0,
        getD_range _ j (by rw [hmsz]; exact hjK) 0, mergedEntry]
      have hfil : Finset.filter (fun i => maps.getD i 0 = (j : ℤ)) (Finset.range K)
          = Finset.filter (fun i => i = j) (Finset.range K) := by
        apply Finset.filter_congr
        intro i hi
        rw [hgetD i (Finset.mem_range.mp hi)]
        constructor
        · intro h
          omega
        · intro h
          omega
      rw [hfil, Finset.filter_eq', if_pos (Finset.mem_range.mpr hjK), Finset.sum_singleton]

/-- Witness for C4 at the spec's concrete merge scenario: map `[0,1,0]` over
3 columns merges columns 0 and 2, with no drop and hence no renormalization:
`[[0.9,0.1,0],[0.6,0.2,0.2]] ↦ [[0.9,0.1],[0.8,0.2]]`. -/
theorem merge_probs_characterization_witness :
    merge_probs [[9/10, 1/10, 0], [6/10, 2/10, 2/10]] [0, 1, 0]
      = some (mergedMatrix [[9/10, 1/10, 0], [6/10, 2/10, 2/10]] [0, 1, 0] 3) ∧
    mergedMatrix [[9/10, 1/10, 0], [6/10, 2/10, 2/10]] [0, 1, 0] 3
      = [[9/10, 1/10], [8/10, 2/10]] := by
  obtain ⟨M, hsome, hM, _, _, _⟩ := merge_probs_characterization
    [[9/10, 1/10, 0], [6/10, 2/10, 2/10]] [0, 1, 0] 3
    (by norm_num) (by norm_num) (by norm_num) (by norm_num)
  rw [if_neg (by norm_num : ¬((-1 : ℤ) ∈ ([0, 1, 0] : List ℤ)))] at hM
  constructor
  · rw [hsome, hM]
  · norm_num [mergedMatrix, mergedEntry, mapSizeOf, mapsMax, max_def,
      (show List.range (Int.toNat 2) = [0, 1] from rfl),
      Finset.sum_filter, Finset.sum_range_succ]

/-- Witness for C6: identity map on a 1-by-2 probability matrix. -/
theorem merge_probs_identity_witness :
    merge_probs [[1/2, 1/2]] ((List.range 2).map (fun i : ℕ => (i : ℤ))) = some [[1/2, 1/2]] :=
  merge_probs_identity [[1/2, 1/2]] 2 (by norm_num) (by norm_num)

/-- C2 counterexample: on degenerate inputs where the renormalization step
divides by zero, no error of any kind is raised — each function returns an
ordinary value.  (`numpy` produces NaN/inf entries with a runtime warning;
in the exact-rational model the zero division yields 0, i.e. the result is
silently coerced to 0 — precisely the behaviour the claim says never
happens.)  `clip_values` is called with all values clipped to 0 and nonzero
target sum `-2`; `clip_noise_rates` with a column summing to 0 after
clipping; `merge_probs` with a row whose surviving mass is exactly 0. -/
theorem degenerate_inputs_raise_no_error :
    clip_values [-1, -1] 0 1 none = [0, 0] ∧
    clip_noise_rates [[0, 0], [0, 0]] = [[0, 0], [0, 0]] ∧
    merge_probs [[1, 0]] [-1, 0] = some [[0]] := by
  refine ⟨?_, ?_, ?_⟩
  · norm_num [clip_values, min_def, max_def]
  · norm_num [clip_noise_rates, cnrRestored, mapIdxQ, mapIdxGo, colSum, ent, clipNR,
      min_def, max_def]
  · have h := merge_probs_eq [[(1 : ℚ), 0]] [-1, 0] (List.cons_ne_nil _ _) (by norm_num)
      (by norm_num [mapsMax, max_def])
    rw [if_pos (by norm_num)] at h
    rw [h]
    norm_num [divRows, mergedMatrix, mergedEntry, mapSizeOf, mapsMax, max_def,
      Function.comp, (show List.range (Int.toNat 1) = [0] from rfl),
      (show List.range 1 = [0] from rfl),
      Finset.sum_filter, Finset.sum_range_succ]

/-- C2 (amended): the code contains no `DegenerateDistributionError` and no
zero-sum check; the zero division proceeds silently.  In particular
`merge_probs` returns a result — never an error — whenever its only actual
failure conditions (empty class map, class map shorter than the column
count, negative output width) are absent, regardless of any row's surviving
probability mass. -/
theorem merge_probs_no_degenerate_error (probs : List (List ℚ)) (maps : List ℤ)
    (hne : maps ≠ [])
    (hlen : (probs.headD []).length ≤ maps.length)
    (hm : (-1 : ℤ) ∈ maps) :
    (merge_probs probs maps).isSome = true := by
  rw [merge_probs_eq probs maps hne hlen (mapsMax_ge_mem maps _ hm)]
  rfl

/-- Witness for C2 (amended): the degenerate input (row of surviving mass 0)
still yields a result. -/
theorem merge_probs_no_degenerate_error_witness :
    (merge_probs [[1, 0]] [-1, 0]).isSome = true :=
  merge_probs_no_degenerate_error [[1, 0]] [-1, 0] (List.cons_ne_nil _ _) (by norm_num)
    (by norm_num)

/-- C9 counterexample: a class map longer than the number of probability
columns is accepted by `merge_probs` without any error — no
`ShapeMismatchError` (nor any other check) exists in the code. -/
theorem merge_probs_no_shape_check :
    ([0, 1] : List ℤ).length ≠ ([[(1 : ℚ)]].headD []).length ∧
    merge_probs [[1]] [0, 1] = some [[1, 0]] := by
  refine ⟨by norm_num, ?_⟩
  have h := merge_probs_eq [[(1 : ℚ)]] [0, 1] (List.cons_ne_nil _ _) (by norm_num)
    (by norm_num [mapsMax, max_def])
  rw [if_neg (by norm_num)] at h
  rw [h]
  norm_num [mergedMatrix, mergedEntry, mapSizeOf, mapsMax, max_def,
    (show List.range (Int.toNat 2) = [0, 1] from rfl),
    Finset.sum_filter, Finset.sum_range_succ]

/-- C9 (amended): `confusion_matrix` rejects unequal-length inputs via a
bare `assert` (modelled: it returns no result exactly on a length mismatch —
in Python an `AssertionError`, not a `ShapeMismatchError`); `merge_probs`
performs no shape validation at all: a class map longer than the column
count is processed normally (its extra entries still influencing the output
width and the `-1` renormalization test), while a shorter one fails with an
out-of-range index access (`IndexError`), not a shape error. -/
theorem shape_mismatch_behaviour :
    (∀ t p : List ℤ, confusion_matrix t p = none ↔ t.length ≠ p.length) ∧
    merge_probs [[1]] [0, 1] = some [[1, 0]] ∧
    merge_probs [[1, 2]] [0] = none := by
  refine ⟨?_, ?_, ?_⟩
  · intro t p
    rw [confusion_matrix]
    by_cases h : t.length = p.length
    · simp [h]
    · simp [h]
  · have h := merge_probs_eq [[(1 : ℚ)]] [0, 1] (List.cons_ne_nil _ _) (by norm_num)
      (by norm_num [mapsMax, max_def])
    rw [if_neg (by norm_num)] at h
    rw [h]
    norm_num [mergedMatrix, mergedEntry, mapSizeOf, mapsMax, max_def,
      (show List.range (Int.toNat 2) = [0, 1] from rfl),
      Finset.sum_filter, Finset.sum_range_succ]
  · simp only [merge_probs]
    rw [if_neg (List.cons_ne_nil _ _), if_pos (by norm_num)]

/-! ### `confusion_matrix` -/

theorem mem_uniqueSorted (l : List ℤ) (a : ℤ) (h : a ∈ l) : a ∈ uniqueSorted l := by
  rw [uniqueSorted, (List.perm_insertionSort _ _).mem_iff]
  exact List.mem_dedup.mpr h

theorem sum_set_add_nat (l : List ℕ) (i k : ℕ) (h : i < l.length) :
    (l.set i (l.getD i 0 + k)).sum = l.sum + k := by
  induction l generalizing i with
  | nil => simp at h
  | cons a tl ih =>
    cases i with
    | zero =>
      simp only [List.getD_cons_zero, List.set_cons_zero, List.sum_cons]
      omega
    | succ n =>
      simp only [List.getD_cons_succ, List.set_cons_succ, List.sum_cons]
      rw [ih n (by simpa using h)]
      omega

theorem map_set {α β : Type} (f : α → β) (l : List α) (i : ℕ) (v : α) :
    (l.set i v).map f = (l.map f).set i (f v) := by
  induction l generalizing i with
  | nil => rfl
  | cons a tl ih =>
    cases i with
    | zero => rfl
    | succ n => simp only [List.set_cons_succ, List.map_cons, ih]

theorem totalCount_incrCell (mtx : List (List ℕ)) (a b : ℕ) (ha : a < mtx.length)
    (hb : b < (mtx.getD a []).length) :
    totalCount (incrCell mtx a b) = totalCount mtx + 1 := by
  rw [incrCell, totalCount, map_set]
  have h1 : ((mtx.getD a []).set b ((mtx.getD a []).getD b 0 + 1)).sum
      = (mtx.getD a []).sum + 1 := sum_set_add_nat _ b 1 hb
  rw [h1]
  have h2 : (mtx.getD a []).sum = (mtx.map List.sum).getD a 0 :=
    (getD_map List.sum mtx a ha [] 0).symm
  rw [h2, sum_set_add_nat _ a 1 (by rw [List.length_map]; exact ha)]
  rfl

theorem incrCell_rows (mtx : List (List ℕ)) (a b Kp : ℕ) (ha : a < mtx.length)
    (hrows : ∀ row ∈ mtx, row.length = Kp) :
    ∀ row ∈ incrCell mtx a b, row.length = Kp := by
  intro row hrow
  rcases List.mem_or_eq_of_mem_set hrow with h | h
  · exact hrows row h
  · subst h
    rw [List.length_set]
    exact hrows _ (getD_mem_of_lt mtx a [] ha)

theorem confusion_fold_spec (ft fp : ℤ → ℕ) (Kt Kp : ℕ) :
    ∀ (l : List (ℤ × ℤ)) (acc : List (List ℕ)),
      acc.length = Kt →
      (∀ row ∈ acc, row.length = Kp) →
      (∀ pr ∈ l, ft pr.1 < Kt ∧ fp pr.2 < Kp) →
      ((l.foldl (fun acc2 pr => incrCell acc2 (ft pr.1) (fp pr.2)) acc).length = Kt ∧
       (∀ row ∈ l.foldl (fun acc2 pr => incrCell acc2 (ft pr.1) (fp pr.2)) acc,
         row.length = Kp) ∧
       totalCount (l.foldl (fun acc2 pr => incrCell acc2 (ft pr.1) (fp pr.2)) acc)
         = totalCount acc + l.length) := by
  intro l
  induction l with
  | nil =>
    intro acc h1 h2 _
    exact ⟨h1, h2, by simp⟩
  | cons pr rest ih =>
    intro acc h1 h2 h3
    have hpr := h3 pr (List.mem_cons_self _ _)
    have ha : ft pr.1 < acc.length := by
      rw [h1]
      exact hpr.1
    have hb : fp pr.2 < (acc.getD (ft pr.1) []).length := by
      rw [h2 _ (getD_mem_of_lt acc (ft pr.1) [] ha)]
      exact hpr.2
    have hrec := ih (incrCell acc (ft pr.1) (fp pr.2))
      (by rw [incrCell, List.length_set, h1])
      (incrCell_rows acc _ _ Kp ha h2)
      (fun q hq => h3 q (List.mem_cons_of_mem _ hq))
    refine ⟨hrec.1, hrec.2.1, ?_⟩
    simp only [List.foldl_cons]
    rw [hrec.2.2, totalCount_incrCell acc _ _ ha hb, List.length_cons]
    omega

/-- C8: for equal-length label sequences, `confusion_matrix` returns a
matrix of shape (number of distinct values of `true`, number of distinct
values of `pred`) — each side's own sorted distinct values — whose cells
total `len(true)`. -/
theorem confusion_matrix_spec (t p : List ℤ) (h : t.length = p.length) :
    ∃ M, confusion_matrix t p = some M ∧
      M.length = (uniqueSorted t).length ∧
      (∀ row ∈ M, row.length = (uniqueSorted p).length) ∧
      totalCount M = t.length := by
  rw [confusion_matrix, if_pos h]
  refine ⟨_, rfl, ?_⟩
  have hzip : ∀ pr ∈ t.zip p,
      (uniqueSorted t).indexOf pr.1 < (uniqueSorted t).length ∧
      (uniqueSorted p).indexOf pr.2 < (uniqueSorted p).length := by
    intro pr hpr
    obtain ⟨h1, h2⟩ := List.of_mem_zip hpr
    exact ⟨List.indexOf_lt_length.mpr (mem_uniqueSorted t pr.1 h1),
      List.indexOf_lt_length.mpr (mem_uniqueSorted p pr.2 h2)⟩
  have hspec := confusion_fold_spec (fun a => (uniqueSorted t).indexOf a)
    (fun b => (uniqueSorted p).indexOf b) (uniqueSorted t).length (uniqueSorted p).length
    (t.zip p)
    (List.replicate (uniqueSorted t).length (List.replicate (uniqueSorted p).length 0))
    (List.length_replicate _ _)
    (by
      intro row hrow
      rw [List.eq_of_mem_replicate hrow]
      exact List.length_replicate _ _)
    hzip
  have hzero : totalCount
      (List.replicate (uniqueSorted t).length (List.replicate (uniqueSorted p).length 0)) = 0 := by
    simp [totalCount, List.map_replicate, List.sum_replicate]
  have hziplen : (t.zip p).length = t.length := by
    rw [List.length_zip, h, min_self]
  refine ⟨hspec.1, hspec.2.1, ?_⟩
  rw [hspec.2.2, hzero, hziplen, Nat.zero_add]

/-- Witness for C8 at the spec's scenario 5: `confusion_matrix [0,0,1] [0,1,1]`
has shape 2×2 and its cells total 3. -/
theorem confusion_matrix_spec_witness :
    ([0, 0, 1] : List ℤ).length = ([0, 1, 1] : List ℤ).length ∧
    ∃ M, confusion_matrix [0, 0, 1] [0, 1, 1] = some M ∧
      M.length = (uniqueSorted [0, 0, 1]).length ∧
      (∀ row ∈ M, row.length = (uniqueSorted [0, 1, 1]).length) ∧
      totalCount M = 3 :=
  ⟨rfl, confusion_matrix_spec [0, 0, 1] [0, 1, 1] rfl⟩

end Cleanlab
